import Mathlib

/-!
Verification of the genny `parse` package (src/parse/parse.go).

The Go code is shallowly embedded over Lean `String`s (Go byte strings are
modelled at the rune/`Char` level; the embedding coincides with the source on
ASCII data, which is all the tool's own constants and all inputs used below).
Go code that can panic (indexing an empty string) is modelled with `Option`:
`none` is a panic.  The external collaborators — the Go lexer (`go/scanner`),
the Go parser (`go/parser`) and the imports normalizer
(`golang.org/x/tools/imports`) — are not part of the repository; the lexer is
modelled from the spec ("tokenize using the target grammar's lexer"), the
parse result is part of the template datum, and the normalizer is a function
parameter.
-/

namespace Genny

/-- Rebuild a string from its character list. -/
def ofChars (l : List Char) : String := String.mk l

/-- Go `strings.Contains` on character lists: `sub` occurs somewhere in `s`
(the empty list occurs in everything, as in Go). -/
def containsL (s sub : List Char) : Bool :=
  match s with
  | [] => sub.isEmpty
  | _ :: rest => sub.isPrefixOf s || containsL rest sub

/-- Go `strings.Contains` on strings. -/
def strContains (s sub : String) : Bool := containsL s.data sub.data

/-- Go `strings.HasPrefix` on strings. -/
def strStarts (s p : String) : Bool := p.data.isPrefixOf s.data

/-- Go `strings.HasSuffix` on strings. -/
def strEnds (s p : String) : Bool := p.data.reverse.isPrefixOf s.data.reverse

/-- Split a list at the leftmost occurrence of `old`: returns the part before
the occurrence and the part after it. -/
def splitFirst (old : List Char) : List Char → Option (List Char × List Char)
  | [] => if old.isPrefixOf ([] : List Char) then some ([], []) else none
  | c :: rest =>
    if old.isPrefixOf (c :: rest) then some ([], (c :: rest).drop old.length)
    else
      match splitFirst old rest with
      | some (b, a) => some (c :: b, a)
      | none => none

/-- Decrement an optional replacement budget (`none` = unlimited, as Go's
negative count). -/
def decOpt : Option Nat → Option Nat
  | none => none
  | some k => some (k - 1)

/-- Fuel-driven core of Go `strings.Replace` for a non-empty pattern:
replace successive leftmost non-overlapping occurrences of `old` by `new`,
at most `n` of them (`none` = all).  Fuel `s.length + 1` always suffices
because each step consumes at least one character of `s`. -/
def replaceFuel (old new : List Char) : Nat → List Char → Option Nat → List Char
  | 0, s, _ => s
  | fuel + 1, s, n =>
    if n = some 0 then s
    else
      match splitFirst old s with
      | none => s
      | some (b, a) => b ++ new ++ replaceFuel old new fuel a (decOpt n)

/-- Go `strings.Replace` with an empty pattern: insert `new` before every rune
and after the last one, up to `n` insertions. -/
def interleave (new : List Char) : List Char → Option Nat → List Char
  | s, some 0 => s
  | [], _ => new
  | c :: rest, n => new ++ c :: interleave new rest (decOpt n)

/-- Go `strings.Replace(s, old, new, n)` on character lists, `n = none`
standing for Go's negative count (replace everything). -/
def replaceL (s old new : List Char) (n : Option Nat) : List Char :=
  if old.isEmpty then interleave new s n
  else replaceFuel old new (s.length + 1) s n

/-- Go `strings.Replace` on strings. -/
def goReplace (s old new : String) (n : Option Nat) : String :=
  ofChars (replaceL s.data old.data new.data n)

/-- Constants of parse.go (`packageKeyword`, `importKeyword`, ...). -/
def genericPackage : String := "generic"

/-- The scaffolding marker `generic.Type` of parse.go. -/
def genericType : String := "generic.Type"

/-- The scaffolding marker `generic.Number` of parse.go. -/
def genericNumber : String := "generic.Number"

/-- The one entry of `unwantedLinePrefixes` in parse.go. -/
def unwantedLineStart : String := "//go:generate genny "

/-- parse.go `isExported`: first character upper-case (Go reads the first
byte; identical on ASCII). -/
def isExported (lit : String) : Bool :=
  match lit.data with
  | [] => false
  | c :: _ => c.isUpper

/-- The trimming/stripping part of parse.go `wordify`: drop trailing `\x7b`
and `\x7d`, drop leading `*` and `&`, delete every `.` (via Go
`strings.Replace` with count -1). -/
def wordifyCore (s : String) : List Char :=
  let l1 := (s.data.reverse.dropWhile (fun c => c = '\x7b' || c = '\x7d')).reverse
  let l2 := l1.dropWhile (fun c => c = '*' || c = '&')
  replaceL l2 ['.'] [] none

/-- parse.go `wordify`.  With `exported = true` the Go code evaluates `s[0]`
on the stripped string and panics when it is empty: that panic is `none`.
(`strings.ToUpper` of a one-byte string is modelled by `Char.toUpper`;
identical on ASCII.) -/
def wordify (s : String) (exported : Bool) : Option String :=
  let core := wordifyCore s
  if exported then
    match core with
    | [] => none
    | c :: cs => some (ofChars (c.toUpper :: cs))
  else some (ofChars core)

/-- parse.go `subIntoLiteral`.  `none` models the panic propagated from
`wordify` (empty stripped replacement while a proper-substring occurrence
has to be rewritten). -/
def subIntoLiteral (lit typeTemplate specificType : String) : Option String :=
  if lit = typeTemplate then some specificType
  else if !(strContains lit typeTemplate) then some lit
  else
    match wordify specificType true with
    | none => none
    | some specificLg =>
      match wordify specificType false with
      | none => none
      | some specificSm =>
        let result := goReplace lit typeTemplate specificLg none
        if strStarts result specificLg && !(isExported lit) then
          some (goReplace result specificLg specificSm (some 1))
        else some result

/-- Go `unicode.IsSpace` restricted to the ASCII white-space characters
(all that occurs in the embedded data). -/
def isGoSpace (c : Char) : Bool :=
  c = ' ' || c = '\t' || c = '\n' || c = '\r' || c = '\x0b' || c = '\x0c'

/-- Go `strings.Fields`: white-space separated words, no empties. -/
def fieldsAux : List Char → List Char → List (List Char)
  | [], acc => if acc.isEmpty then [] else [acc.reverse]
  | c :: rest, acc =>
    if isGoSpace c then
      if acc.isEmpty then fieldsAux rest [] else acc.reverse :: fieldsAux rest []
    else fieldsAux rest (c :: acc)

/-- parse.go `subTypeIntoComment`: apply the literal rule to each
white-space-delimited word of a comment, appending a space after each. -/
def subTypeIntoComment (line typeTemplate specificType : String) : Option String :=
  (fieldsAux line.data []).foldlM
    (fun acc w => do
      let s ← subIntoLiteral (ofChars w) typeTemplate specificType
      pure (acc ++ s ++ " "))
    ""

/-- A scanned token, as parse.go consumes it: the comment's literal text, a
literal token's text (identifier, number, string, rune), or the printed form
`tok.String()` of any other token (operators, keywords, the inserted
semicolon, `ILLEGAL`). -/
inductive GoTok
  | comment (lit : String)
  | literal (lit : String)
  | op (str : String)
deriving DecidableEq

/-- Modelled from the spec: the target grammar's lexer (Go's `go/scanner`)
keywords. -/
def goKeywords : List String :=
  ["break", "case", "chan", "const", "continue", "default", "defer", "else",
   "fallthrough", "for", "func", "go", "goto", "if", "import", "interface",
   "map", "package", "range", "return", "select", "struct", "switch", "type",
   "var"]

/-- Keywords after which the lexer pends an automatic semicolon. -/
def semiKeywords : List String := ["break", "continue", "fallthrough", "return"]

/-- Operator/punctuation spellings, longest first for maximal munch
(`/` is handled before this table because of comments). -/
def goOps : List String :=
  ["<<=", ">>=", "&^=", "...",
   "==", "!=", "<=", ">=", "&&", "||", "<-", "++", "--", "+=", "-=", "*=",
   "/=", "%=", "&=", "|=", "^=", "<<", ">>", "&^", ":=",
   "+", "-", "*", "/", "%", "&", "|", "^", "<", ">", "=", "!", "(", ")",
   "[", "]", "\x7b", "\x7d", ",", ";", ":", "."]

/-- Operators after which the lexer pends an automatic semicolon. -/
def semiOps : List String := [")", "]", "\x7d", "++", "--"]

/-- Maximal-munch operator match. -/
def matchOp (cs : List Char) : Option (String × List Char) :=
  (goOps.find? (fun o => o.data.isPrefixOf cs)).map
    (fun o => (o, cs.drop o.data.length))

/-- First character of a Go identifier (ASCII restriction of
`unicode.IsLetter` plus `_`). -/
def isIdentStart (c : Char) : Bool := c.isAlpha || c = '_'

/-- parse.go `isAlphaNumeric`: letter, digit or `_`. -/
def isAlphaNumeric (c : Char) : Bool := c = '_' || c.isAlpha || c.isDigit

/-- Scan a double-quoted string body after the opening quote: returns the
scanned characters (closing quote included when present) and the rest.
Backslash escapes are skipped over; an unterminated literal extends to the
end of the line, as the error-tolerant Go lexer's literal does. -/
def scanStrBody (quote : Char) : Nat → List Char → (List Char × List Char)
  | 0, s => ([], s)
  | _ + 1, [] => ([], [])
  | fuel + 1, c :: rest =>
    if c = quote then ([c], rest)
    else if c = '\\' && quote ≠ '\x60' then
      match rest with
      | [] => ([c], [])
      | e :: rest2 =>
        let (a, b) := scanStrBody quote fuel rest2
        (c :: e :: a, b)
    else
      let (a, b) := scanStrBody quote fuel rest
      (c :: a, b)

/-- Split a block comment body at the closing `*` `/`, when present. -/
def splitAtClose : List Char → Option (List Char × List Char)
  | [] => none
  | '*' :: '/' :: rest => some (['*', '/'], rest)
  | c :: rest =>
    match splitAtClose rest with
    | some (a, b) => some (c :: a, b)
    | none => none

/-- After a block comment, does the rest of the line hold only white space
and further comments (Go `findLineEnd` on one-line input)? -/
def lineEndAfter : Nat → List Char → Bool
  | 0, _ => true
  | fuel + 1, cs =>
    match cs.dropWhile (fun c => c = ' ' || c = '\t') with
    | [] => true
    | '\n' :: _ => true
    | '/' :: '/' :: _ => true
    | '/' :: '*' :: body =>
      match splitAtClose body with
      | some (_, rest) => lineEndAfter fuel rest
      | none => true
    | _ => false

/-- Modelled from the spec: one `Scan` loop of the target grammar's lexer
(`go/scanner` with `ScanComments`), restricted to the constructs that occur
in this code base's lines: white space, identifiers/keywords, decimal
numbers, string/rune literals, line and block comments, the operator table,
automatic semicolon insertion (pending after identifiers, literals,
`)` `]` `\x7d` `++` `--` and `break continue fallthrough return`; emitted at
end of input and before a line-ending comment), and `ILLEGAL` for anything
else.  The Boolean argument is the pending-semicolon state. -/
def scanAux : Nat → List Char → Bool → List GoTok
  | 0, _, _ => []
  | fuel + 1, cs, insertSemi =>
    match cs with
    | [] => if insertSemi then [GoTok.op ";"] else []
    | c :: rest =>
      if c = ' ' || c = '\t' || c = '\r' then scanAux fuel rest insertSemi
      else if c = '\n' then
        if insertSemi then GoTok.op ";" :: scanAux fuel rest false
        else scanAux fuel rest false
      else if c = '/' && rest.head? = some '/' then
        if insertSemi then GoTok.op ";" :: scanAux fuel cs false
        else
          let cmt := cs.takeWhile (fun x => x ≠ '\n')
          GoTok.comment (ofChars cmt) :: scanAux fuel (cs.dropWhile (fun x => x ≠ '\n')) false
      else if c = '/' && rest.head? = some '*' then
        match splitAtClose (rest.drop 1) with
        | some (body, rest2) =>
          if insertSemi && lineEndAfter fuel rest2 then
            GoTok.op ";" :: scanAux fuel cs false
          else
            GoTok.comment (ofChars ('/' :: '*' :: body)) :: scanAux fuel rest2 false
        | none =>
          if insertSemi then GoTok.op ";" :: scanAux fuel cs false
          else [GoTok.comment (ofChars cs)]
      else if isIdentStart c then
        let word := cs.takeWhile isAlphaNumeric
        let rest2 := cs.dropWhile isAlphaNumeric
        if goKeywords.contains (ofChars word) then
          GoTok.op (ofChars word) :: scanAux fuel rest2 (semiKeywords.contains (ofChars word))
        else
          GoTok.literal (ofChars word) :: scanAux fuel rest2 true
      else if c.isDigit then
        let intPart := cs.takeWhile Char.isDigit
        let rest2 := cs.dropWhile Char.isDigit
        match rest2 with
        | '.' :: d :: rest3 =>
          if d.isDigit then
            let frac := (d :: rest3).takeWhile Char.isDigit
            let rest4 := (d :: rest3).dropWhile Char.isDigit
            GoTok.literal (ofChars (intPart ++ '.' :: frac)) :: scanAux fuel rest4 true
          else GoTok.literal (ofChars intPart) :: scanAux fuel rest2 true
        | _ => GoTok.literal (ofChars intPart) :: scanAux fuel rest2 true
      else if c = '"' || c = '\x27' || c = '\x60' then
        let (body, rest2) := scanStrBody c fuel rest
        GoTok.literal (ofChars (c :: body)) :: scanAux fuel rest2 true
      else
        match matchOp cs with
        | some (o, rest2) => GoTok.op o :: scanAux fuel rest2 (semiOps.contains o)
        | none => GoTok.op "ILLEGAL" :: scanAux fuel rest insertSemi

/-- Tokenize one line (the `s.Init`/`s.Scan` loop of `subTypeIntoLine`). -/
def goScanLine (line : String) : List GoTok :=
  scanAux (line.data.length * 2 + 2) line.data false

/-- parse.go `subTypeIntoLine`: substitute into every comment and literal
token and join every token's text with single spaces. -/
def subTypeIntoLine (line typeTemplate specificType : String) : Option String :=
  (goScanLine line).foldlM
    (fun output tok =>
      match tok with
      | GoTok.comment lit => do
        let subbed ← subTypeIntoComment lit typeTemplate specificType
        pure (output ++ subbed ++ " ")
      | GoTok.literal lit => do
        let subbed ← subIntoLiteral lit typeTemplate specificType
        pure (output ++ subbed ++ " ")
      | GoTok.op s => pure (output ++ s ++ " "))
    ""

/-- The errors of parse.go: `errSource`, `errMissingSpecificType`,
`errImports`. -/
inductive GennyError
  | errSource (msg : String)
  | errMissingSpecificType (genericType : String)
  | errImports (msg : String)
deriving DecidableEq

/-- The shape of a type-spec right-hand side, as far as `generateSpecific`'s
validation walk inspects it: a selector `pkg.sel` with an identifier base,
or anything else. -/
inductive TypeExprA
  | selector (pkg sel : String)
  | otherType
deriving DecidableEq

/-- One spec of a Go `GenDecl`, as far as the validation walk inspects it. -/
inductive SpecA
  | typeSpec (name : String) (ty : TypeExprA)
  | otherSpec
deriving DecidableEq

/-- One top-level declaration, as far as the validation walk inspects it. -/
inductive DeclA
  | genDecl (specs : List SpecA)
  | otherDecl
deriving DecidableEq

/-- A template source unit.  The raw text is its list of lines (no line
contains a newline character); `parseError`/`decls` stand for the outcome of
the external `go/parser.ParseFile` call on that text, which is part of the
input datum of the embedding. -/
structure GoTemplate where
  parseError : Option String
  decls : List DeclA
  lines : List String
deriving DecidableEq

/-- The placeholder names declared as `type X generic.<anything>`, in
declaration order — exactly the names `generateSpecific`'s nested validation
loops visit. -/
def requiredGenericNames (decls : List DeclA) : List String :=
  decls.flatMap
    (fun d =>
      match d with
      | DeclA.genDecl specs =>
        specs.filterMap
          (fun sp =>
            match sp with
            | SpecA.typeSpec name (TypeExprA.selector pkg _) =>
              if pkg = genericPackage then some name else none
            | _ => none)
      | DeclA.otherDecl => [])

/-- Key membership in a substitution set (a Go map, embedded as an
association list in one fixed iteration order). -/
def lookupTypeSet (typeSet : List (String × String)) (name : String) : Bool :=
  typeSet.any (fun p => p.1 = name)

/-- parse.go `makeLine` minus the terminator: `strings.TrimRight(s, "\r\n")`.
(`fmt.Sprintln` then appends the `"\n"` that the line-list representation
keeps implicit — `joinLines` below re-renders it.) -/
def makeLine (s : String) : String :=
  ofChars ((s.data.reverse.dropWhile (fun c => c = '\r' || c = '\n')).reverse)

/-- The `for t, specificType := range typeSet` loop body of
`generateSpecific`: substitute every key contained in the line, in the
map's (modelled) iteration order. -/
def applyTypeSet (typeSet : List (String × String)) (line : String) : Option String :=
  typeSet.foldlM
    (fun l p =>
      if strContains l p.1 then subTypeIntoLine l p.1 p.2 else pure l)
    line

/-- The line-scanning loop of `generateSpecific`: drop scaffolding lines
(and any pending comment), substitute, hold a single-line comment pending so
it stays next to the following code line, emit `makeLine`d lines.  The
second argument is the pending comment (`""` = none); a comment still
pending at end of input is dropped. -/
def generateSpecificLines (typeSet : List (String × String)) :
    List String → String → Option (List String)
  | [], _ => some []
  | line :: rest, comment =>
    if strContains line genericType || strContains line genericNumber then
      generateSpecificLines typeSet rest ""
    else do
      let subbed ← applyTypeSet typeSet line
      let emitted := if comment = "" then [] else [makeLine comment]
      if strStarts subbed "//" then do
        let restOut ← generateSpecificLines typeSet rest subbed
        pure (emitted ++ restOut)
      else do
        let restOut ← generateSpecificLines typeSet rest ""
        pure (emitted ++ makeLine subbed :: restOut)

/-- parse.go `generateSpecific`: parse (outcome is the template's datum),
validate that every `generic.`-declared name is a key of the set, then run
the line scan.  `some (.error e)` is an error return, `none` a panic. -/
def generateSpecific (tpl : GoTemplate) (typeSet : List (String × String)) :
    Option (Except GennyError (List String)) :=
  match tpl.parseError with
  | some e => some (Except.error (GennyError.errSource e))
  | none =>
    match (requiredGenericNames tpl.decls).find? (fun n => !(lookupTypeSet typeSet n)) with
    | some n => some (Except.error (GennyError.errMissingSpecificType n))
    | none => (generateSpecificLines typeSet tpl.lines "").map Except.ok

/-- The `for _, typeSet := range typeSets` loop of `Generics`: concatenate
the per-set outputs, aborting on the first error with no partial output. -/
def generateAll (tpl : GoTemplate) :
    List (List (String × String)) → Option (Except GennyError (List String))
  | [] => some (Except.ok [])
  | ts :: rest => do
    let r ← generateSpecific tpl ts
    match r with
    | Except.error e => pure (Except.error e)
    | Except.ok out => do
      let r2 ← generateAll tpl rest
      match r2 with
      | Except.error e => pure (Except.error e)
      | Except.ok outs => pure (Except.ok (out ++ outs))

/-- The `header` banner of parse.go, as the lines its bytes scan into. -/
def headerLines : List String :=
  ["", "",
   "// This file was automatically generated by genny.",
   "// Any changes will be lost if this file is regenerated.",
   "// see https://github.com/cheekybits/genny",
   ""]

/-- The clean-up loop of `Generics`: drop import lines and import blocks
(closing line included), keep only the first `package`-prefixed line, drop
`//go:generate genny `-prefixed lines.  First Boolean: `packageFound`;
second: `insideImportBlock`. -/
def cleanLines : Bool → Bool → List String → List String
  | _, _, [] => []
  | pf, true, l :: rest =>
    if strEnds l ")" then cleanLines pf false rest
    else cleanLines pf true rest
  | pf, false, l :: rest =>
    if strStarts l "package" then
      if pf then cleanLines true false rest
      else
        -- the unwanted-prefixes check still runs on this line in the source;
        -- it can never fire on a `package`-prefixed line
        if strStarts l unwantedLineStart then cleanLines true false rest
        else makeLine l :: cleanLines true false rest
    else if strStarts l "import" then
      if strEnds l "(" then cleanLines pf true rest
      else cleanLines pf false rest
    else if strStarts l unwantedLineStart then cleanLines pf false rest
    else makeLine l :: cleanLines pf false rest

/-- Instrumented duplicate of `cleanLines`, one entry per input line:
the `makeLine`d text, whether the clean-up keeps it, and whether it is
related to imports: scanned inside an import block, or `import`-prefixed. -/
def cleanTrace : Bool → Bool → List String → List (String × Bool × Bool)
  | _, _, [] => []
  | pf, true, l :: rest =>
    if strEnds l ")" then (makeLine l, false, true) :: cleanTrace pf false rest
    else (makeLine l, false, true) :: cleanTrace pf true rest
  | pf, false, l :: rest =>
    if strStarts l "package" then
      if pf then (makeLine l, false, false) :: cleanTrace true false rest
      else
        if strStarts l unwantedLineStart then (makeLine l, false, false) :: cleanTrace true false rest
        else (makeLine l, true, false) :: cleanTrace true false rest
    else if strStarts l "import" then
      if strEnds l "(" then (makeLine l, false, true) :: cleanTrace pf true rest
      else (makeLine l, false, true) :: cleanTrace pf false rest
    else if strStarts l unwantedLineStart then (makeLine l, false, false) :: cleanTrace pf false rest
    else (makeLine l, true, false) :: cleanTrace pf false rest

/-- Go `strings.Split(s, sep)` for non-empty `sep` (fuel as in
`replaceFuel`); an empty separator explodes the string into runes. -/
def splitFuel (sep : List Char) : Nat → List Char → List (List Char)
  | 0, s => [s]
  | fuel + 1, s =>
    match splitFirst sep s with
    | none => [s]
    | some (b, a) => b :: splitFuel sep fuel a

/-- Go `strings.Split`. -/
def goSplit (s sep : String) : List String :=
  if sep.data.isEmpty then s.data.map (fun c => ofChars [c])
  else (splitFuel sep.data (s.data.length + 1) s.data).map ofChars

/-- Go `strings.Join`. -/
def goJoin (parts : List String) (sep : String) : String :=
  match parts with
  | [] => ""
  | p :: rest => rest.foldl (fun acc q => acc ++ sep ++ q) p

/-- parse.go `changePackage`, over lines: on the first `package`-prefixed
line, split on the single space character, overwrite the second part with
the package name, re-join.  When the split has fewer than two parts the Go
code indexes out of range: `none`. -/
def changePackageAux (pkgName : String) : Bool → List String → Option (List String)
  | _, [] => some []
  | done, s :: rest =>
    if !done && strStarts s "package" then
      let parts := goSplit s " "
      match parts with
      | _ :: _ :: _ => do
        let r ← changePackageAux pkgName true rest
        pure (goJoin (parts.set 1 pkgName) " " :: r)
      | _ => none
    else do
      let r ← changePackageAux pkgName done rest
      pure (s :: r)

/-- parse.go `changePackage` (the `io.Reader` re-scan is the identity on the
line-list representation). -/
def changePackage (lines : List String) (pkgName : String) : Option (List String) :=
  changePackageAux pkgName false lines

/-- Render a line list to the byte string it stands for (`fmt.Sprintln` /
`fmt.Fprintln` append one `"\n"` per line). -/
def joinLines (lines : List String) : String :=
  String.join (lines.map (fun l => l ++ "\n"))

/-- The merged pre-normalization line list of a `Generics` run: banner
followed by the concatenated per-set outputs (when every per-set generation
succeeds). -/
def mergedLines (tpl : GoTemplate) (typeSets : List (List (String × String))) :
    Option (List String) :=
  match generateAll tpl typeSets with
  | some (Except.ok body) => some (headerLines ++ body)
  | _ => none

/-- parse.go `Generics`.  `importsProcess` is the external
`imports.Process` collaborator, applied to the output-filename hint and the
cleaned (and possibly renamed) text; its error becomes `errImports`.
`filename` is only parser context and reaches nothing in the embedding. -/
def Generics (filename outputFilename pkgName : String) (tpl : GoTemplate)
    (importsProcess : String → String → Except String String)
    (typeSets : List (List (String × String))) : Option (Except GennyError String) :=
  match generateAll tpl typeSets with
  | none => none
  | some (Except.error e) => some (Except.error e)
  | some (Except.ok body) =>
    let cleaned := cleanLines false false (headerLines ++ body)
    match (if pkgName ≠ "" then changePackage cleaned pkgName else some cleaned) with
    | none => none
    | some outLines =>
      match importsProcess outputFilename (joinLines outLines) with
      | Except.error e => some (Except.error (GennyError.errImports e))
      | Except.ok res => some (Except.ok res)

/-- Written from the spec's words for the wordify fragment ("stripping
trailing brace characters, leading pointer/reference sigils, and all `.`
characters"), with the dot removal done by `List.filter` rather than the
source's counted `strings.Replace`. -/
def fragmentSpec (R : String) : String :=
  ofChars
    (((R.data.reverse.dropWhile (fun c => c = '\x7b' || c = '\x7d')).reverse.dropWhile
        (fun c => c = '*' || c = '&')).filter (fun c => c ≠ '.'))

/-- Capitalize the first character (the spec's "exported variant"). -/
def upperFirst (s : String) : String :=
  match s.data with
  | [] => s
  | c :: cs => ofChars (c.toUpper :: cs)

/-- Written from the spec's words for the literal rule on an unexported word
containing `P` as a proper substring, with the amendment C4's counterexample
forces: every occurrence of `P` becomes the exported variant of the
fragment, and a leading occurrence of the exported variant is replaced by
the fragment itself (the source's "unexported variant" keeps the fragment's
own casing; it lower-cases nothing).  The leading replacement is expressed
by prefix surgery rather than the source's counted `strings.Replace`. -/
def literalRuleSpec (word P R : String) : Option String :=
  match (fragmentSpec R).data with
  | [] => none
  | _ :: _ =>
    if strStarts (goReplace word P (upperFirst (fragmentSpec R)) none)
        (upperFirst (fragmentSpec R)) then
      some (ofChars ((fragmentSpec R).data ++
        (goReplace word P (upperFirst (fragmentSpec R)) none).data.drop
          (upperFirst (fragmentSpec R)).data.length))
    else some (goReplace word P (upperFirst (fragmentSpec R)) none)

/-- Written from the spec's words for the Package Renamer as claim C7 states
it: split the first `package`-prefixed line on white space (`Fields`-wise)
and replace its second token, re-joining with single spaces. -/
def changePackageWhitespaceSpec (lines : List String) (pkgName : String) : List String :=
  match lines with
  | [] => []
  | l :: rest =>
    if strStarts l "package" then
      match fieldsAux l.data [] with
      | first :: _ :: restTok =>
        goJoin (ofChars first :: pkgName :: restTok.map ofChars) " " :: rest
      | _ => l :: rest
    else l :: changePackageWhitespaceSpec rest pkgName

/-- A stub for the external imports normalizer that returns its input
unchanged (used to exhibit concrete `Generics` runs). -/
def okNorm : String → String → Except String String := fun _ text => Except.ok text

/-- Concrete two-placeholder template used by the C2 counterexample. -/
def tplC2 : GoTemplate :=
  ⟨none,
   [DeclA.genDecl
     [SpecA.typeSpec "T" (TypeExprA.selector "generic" "Type"),
      SpecA.typeSpec "TT" (TypeExprA.selector "generic" "Type")]],
   ["package main", "type T generic.Type", "type TT generic.Type",
    "func f(x TT)"]⟩

/-- Concrete template with two placeholders used by the C3 witness. -/
def tplC3 : GoTemplate :=
  ⟨none,
   [DeclA.genDecl
     [SpecA.typeSpec "KeyType" (TypeExprA.selector "generic" "Type"),
      SpecA.typeSpec "ValueType" (TypeExprA.selector "generic" "Type")]],
   ["package main", "type KeyType generic.Type",
    "type ValueType generic.Type",
    "func F(k KeyType, v ValueType)"]⟩

/-- Substitution-set list for the C3 witness: the second set misses
`ValueType`. -/
def setsC3 : List (List (String × String)) :=
  [[("KeyType", "int"), ("ValueType", "string")], [("KeyType", "int")]]

/-- Concrete template with a hand-authored import block used by the C5
witness. -/
def tplC5 : GoTemplate :=
  ⟨none,
   [DeclA.genDecl
     [SpecA.typeSpec "KeyType" (TypeExprA.selector "generic" "Type")]],
   ["package main", "import (", "\t\"os\"", ")",
    "type KeyType generic.Type", "func Push(v KeyType)"]⟩

/-- Concrete template for the C5 counterexample: the substitution key `(`
rewrites the import block's opening line. -/
def tplC5x : GoTemplate :=
  ⟨none,
   [DeclA.genDecl [SpecA.typeSpec "T" (TypeExprA.selector "generic" "Type")]],
   ["package main", "import (", "\"fmt\"", ")",
    "type T generic.Type", "func f(T)"]⟩

/-- Decidable equality for `Except` values, so that concrete runs can be
compared by `decide`. -/
instance {ε α : Type} [DecidableEq ε] [DecidableEq α] : DecidableEq (Except ε α) := fun a b =>
  match a, b with
  | Except.ok x, Except.ok y =>
    if h : x = y then Decidable.isTrue (congrArg Except.ok h)
    else Decidable.isFalse (fun hh => h (Except.ok.inj hh))
  | Except.error x, Except.error y =>
    if h : x = y then Decidable.isTrue (congrArg Except.error h)
    else Decidable.isFalse (fun hh => h (Except.error.inj hh))
  | Except.ok _, Except.error _ => Decidable.isFalse (fun hh => Except.noConfusion hh)
  | Except.error _, Except.ok _ => Decidable.isFalse (fun hh => Except.noConfusion hh)

/-! ## Helper lemmas -/

/-- When `old` is a prefix, the leftmost occurrence is at position zero. -/
theorem splitFirst_of_starts (old s : List Char) (h : old.isPrefixOf s = true) :
    splitFirst old s = some ([], s.drop old.length) := by
  cases s with
  | nil => simp [splitFirst, h]
  | cons c rest => simp [splitFirst, h]

/-- An exhausted replacement budget leaves the list unchanged. -/
theorem replaceFuel_stop (old new : List Char) (fuel : Nat) (s : List Char) :
    replaceFuel old new fuel s (some 0) = s := by
  cases fuel with
  | zero => rfl
  | succ f => simp [replaceFuel]

/-- Go `strings.Replace(s, old, new, 1)` on a string starting with `old`
swaps exactly that leading occurrence. -/
theorem goReplace_first_of_starts (s old new : String) (hne : old.data ≠ [])
    (h : strStarts s old = true) :
    goReplace s old new (some 1) = ofChars (new.data ++ s.data.drop old.data.length) := by
  have hprefix : old.data.isPrefixOf s.data = true := h
  unfold goReplace replaceL
  rw [if_neg (by simpa [List.isEmpty_iff] using hne)]
  rw [show s.data.length + 1 = s.data.length + 1 from rfl]
  unfold replaceFuel
  rw [if_neg (by decide)]
  rw [splitFirst_of_starts old.data s.data hprefix]
  simp only [decOpt]
  rw [show (1 : Nat) - 1 = 0 from rfl, replaceFuel_stop]
  simp

/-- A failed leftmost search for a single character means it is absent. -/
theorem splitFirst_single_none (c : Char) (s : List Char)
    (h : splitFirst [c] s = none) : c ∉ s := by
  induction s with
  | nil => simp
  | cons x rest ih =>
    by_cases hx : ([c] : List Char).isPrefixOf (x :: rest) = true
    · simp [splitFirst, hx] at h
    · have hcx : ¬ c = x := by
        intro he
        apply hx
        simp [List.isPrefixOf, he]
      rw [splitFirst] at h
      rw [if_neg hx] at h
      intro hmem
      rcases List.mem_cons.mp hmem with h1 | h2
      · exact hcx h1
      · cases hr : splitFirst [c] rest with
        | none => exact (ih hr) h2
        | some p => rw [hr] at h; cases p; simp at h

/-- A successful leftmost search for a single character decomposes the list,
with the character absent from the part before the occurrence. -/
theorem splitFirst_single_some (c : Char) (s : List Char) :
    ∀ b a, splitFirst [c] s = some (b, a) → s = b ++ c :: a ∧ c ∉ b := by
  induction s with
  | nil =>
    intro b a h
    simp [splitFirst, List.isPrefixOf] at h
  | cons x rest ih =>
    intro b a h
    by_cases hx : ([c] : List Char).isPrefixOf (x :: rest) = true
    · have hcx : c = x := by
        have : (c == x && List.isPrefixOf [] rest) = true := hx
        simpa using this
      rw [splitFirst, if_pos hx] at h
      simp at h
      obtain ⟨hb, ha⟩ := h
      subst hb; subst ha
      simp [hcx]
    · have hcx : ¬ c = x := by
        intro he
        apply hx
        simp [List.isPrefixOf, he]
      rw [splitFirst, if_neg hx] at h
      cases hr : splitFirst [c] rest with
      | none => rw [hr] at h; simp at h
      | some p =>
        rw [hr] at h
        cases p with
        | mk b2 a2 =>
          simp at h
          obtain ⟨hb, ha⟩ := h
          obtain ⟨hdec, hnotin⟩ := ih b2 a2 hr
          subst hb; subst ha
          constructor
          · simp [hdec]
          · intro hmem
            rcases List.mem_cons.mp hmem with h1 | h2
            · exact hcx h1
            · exact hnotin h2

/-- Go `strings.Replace(s, ".", "", -1)` deletes exactly the dots. -/
theorem replaceFuel_dot_filter :
    ∀ fuel (s : List Char), s.length ≤ fuel →
      replaceFuel ['.'] [] fuel s none = s.filter (fun c => c ≠ '.') := by
  intro fuel
  induction fuel with
  | zero =>
    intro s hs
    have : s = [] := List.length_eq_zero.mp (Nat.le_zero.mp hs)
    subst this
    rfl
  | succ f ih =>
    intro s hs
    rw [replaceFuel, if_neg (by decide)]
    cases hr : splitFirst ['.'] s with
    | none =>
      have habs := splitFirst_single_none '.' s hr
      rw [(List.filter_eq_self).mpr]
      intro a ha
      simp only [ne_eq, decide_eq_true_eq]
      intro he
      exact habs (he ▸ ha)
    | some p =>
      cases p with
      | mk b a =>
        obtain ⟨hdec, hnotin⟩ := splitFirst_single_some '.' s b a hr
        have hlen : a.length ≤ f := by
          subst hdec
          simp at hs
          omega
        show b ++ [] ++ replaceFuel ['.'] [] f a none = _
        rw [ih a hlen]
        subst hdec
        rw [List.filter_append]
        have hb : b.filter (fun c => c ≠ '.') = b := by
          rw [List.filter_eq_self]
          intro x hx
          simp only [ne_eq, decide_eq_true_eq]
          intro he
          exact hnotin (he ▸ hx)
        have hdot : List.filter (fun c => decide (c ≠ '.')) ('.' :: a) =
            List.filter (fun c => decide (c ≠ '.')) a := by
          rw [List.filter_cons, if_neg (by decide)]
        rw [hb, hdot]
        simp

/-- The source's `wordify` stripping computes the spec's fragment. -/
theorem wordifyCore_eq_fragment (s : String) : wordifyCore s = (fragmentSpec s).data := by
  unfold wordifyCore fragmentSpec replaceL
  rw [if_neg (by decide)]
  rw [replaceFuel_dot_filter _ _ (Nat.le_succ _)]
  rfl

/-- Rebuilding a string from its own characters is the identity. -/
theorem ofChars_data (s : String) : ofChars s.data = s := by
  cases s
  rfl

/-! ## Claim theorems -/

/-- C1 (counterexample): with the substitution set mapping KeyType to int,
the pre-normalization output of the substitution loop for the line
`func (l *KeyTypeList) Push(v KeyType)` is NOT the claimed compact string
`func (l *IntList) Push(v int)` — the line is re-rendered token by token
with single spaces and an automatically inserted semicolon. -/
theorem c1_per_set_line_counterexample :
    applyTypeSet [("KeyType", "int")] "func (l *KeyTypeList) Push(v KeyType)" ≠
      some "func (l *IntList) Push(v int)" := by decide

/-- C1 (amended): the pre-normalization output for that line is exactly
`func ( l * IntList ) Push ( v int ) ; ` — the exact-match `KeyType` token
becomes `int` verbatim and inside `KeyTypeList` the substring becomes `Int`
(exported form), as claimed, but the tokens are joined by single spaces,
a trailing space is appended, and the lexer's automatic semicolon appears. -/
theorem c1_per_set_line_output :
    applyTypeSet [("KeyType", "int")] "func (l *KeyTypeList) Push(v KeyType)" =
      some "func ( l * IntList ) Push ( v int ) ; " := by decide

set_option maxRecDepth 8192

/-- C2 (counterexample): `Generics` is not independent of the iteration
order of a substitution set's placeholder map.  The two runs below use the
same two-entry set `{T: int, TT: string}` in its two iteration orders on a
template line `func f(x TT)`; substituting `T` first rewrites the word `TT`
to `IntInt`, while substituting `TT` first rewrites it to `string`, so the
returned bytes differ. -/
theorem c2_order_counterexample :
    ([("T", "int"), ("TT", "string")] : List (String × String)).Perm
      [("TT", "string"), ("T", "int")] ∧
    Generics "f.go" "o.go" "" tplC2 okNorm [[("T", "int"), ("TT", "string")]] ≠
      Generics "f.go" "o.go" "" tplC2 okNorm [[("TT", "string"), ("T", "int")]] := by
  constructor
  · exact List.Perm.swap _ _ _
  · decide

/-- C2 (amended): `Generics` is a pure function of its inputs together with
the iteration order of each substitution set; in particular, when every set
holds at most one entry the output does not depend on that order (sets of
two or more entries can interact, as the counterexample shows). -/
theorem c2_determinism (fn ofn pkg : String) (tpl : GoTemplate)
    (norm : String → String → Except String String)
    (sets1 sets2 : List (List (String × String)))
    (h : List.Forall₂ (fun a b => a.Perm b ∧ a.length ≤ 1) sets1 sets2) :
    Generics fn ofn pkg tpl norm sets1 = Generics fn ofn pkg tpl norm sets2 := by
  have heq : sets1 = sets2 := by
    induction h with
    | nil => rfl
    | @cons a b as bs hab _ ih =>
      obtain ⟨hperm, hlen⟩ := hab
      have hone : a = b := by
        cases a with
        | nil => exact (List.perm_nil.mp hperm.symm).symm
        | cons x xs =>
          cases xs with
          | nil => exact (List.perm_singleton.mp hperm.symm).symm
          | cons y ys => simp at hlen
      rw [hone, ih]
  rw [heq]

/-- C6: on a word exactly equal to the placeholder, `subIntoLiteral`
returns the replacement expression verbatim — no wordification is applied
(the theorem holds even for replacements such as `""` on which wordification
would panic, which shows it is never reached). -/
theorem c6_exact_match (P R : String) : subIntoLiteral P P R = some R := by
  simp [subIntoLiteral]

/-- C8: `subIntoLiteral` panics (returns `none`) exactly when the
placeholder occurs in the word as a proper substring and the replacement
strips to an empty wordify fragment; under a non-empty fragment it is
total. -/
theorem c8_panic_iff (w P R : String) :
    subIntoLiteral w P R = none ↔ (w ≠ P ∧ strContains w P = true ∧ wordifyCore R = []) := by
  unfold subIntoLiteral
  by_cases h1 : w = P
  · simp [h1]
  · rw [if_neg h1]
    cases hsc : strContains w P with
    | false => simp
    | true =>
      rw [if_neg (by simp)]
      cases hc : wordifyCore R with
      | nil =>
        have hw : wordify R true = none := by simp [wordify, hc]
        rw [hw]
        simp [h1, hc]
      | cons c cs =>
        have hw : wordify R true = some (ofChars (c.toUpper :: cs)) := by
          simp [wordify, hc]
        have hw2 : wordify R false = some (ofChars (c :: cs)) := by
          simp [wordify, hc]
        rw [hw, hw2]
        dsimp only
        split <;> simp [hc]

/-- C8 (witness): the replacement `"*"` strips to an empty fragment, and
`T` occurs properly inside `aT`, so the substituter panics there. -/
theorem c8_panic_witness : subIntoLiteral "aT" "T" "*" = none :=
  (c8_panic_iff "aT" "T" "*").mpr (by decide)

/-- C4 (counterexample): for the unexported word `myTypeQueue` containing
`myType` with replacement `Whatever`, the code returns `WhateverQueue`: the
leading occurrence is replaced by the fragment itself (`Whatever`), not by
a first-letter-lower-cased variant (`whatever`) as the claim states —
`wordify` with `exported = false` never lower-cases anything. -/
theorem c4_export_counterexample :
    subIntoLiteral "myTypeQueue" "myType" "Whatever" = some "WhateverQueue" ∧
    (some "WhateverQueue" : Option String) ≠ some "whateverQueue" := by
  constructor
  · decide
  · decide

/-- C4 (amended): for every unexported word containing the placeholder as a
proper substring, the substituter agrees with the spec's literal rule
amended in one point: every occurrence of `P` becomes the exported
(first-letter-upper-cased) variant of the replacement's fragment, and a
leading occurrence of that exported variant is then replaced by the
fragment itself, unmodified — not by a lower-cased variant — leaving the
rest of the word unaffected.  (Both sides panic together when the fragment
is empty.) -/
theorem c4_literal_rule (w P R : String) (hne : w ≠ P)
    (hcont : strContains w P = true) (hunexp : isExported w = false) :
    subIntoLiteral w P R = literalRuleSpec w P R := by
  unfold subIntoLiteral literalRuleSpec
  rw [if_neg hne, hcont]
  rw [if_neg (by simp)]
  cases hfrag : (fragmentSpec R).data with
  | nil =>
    have hw : wordify R true = none := by
      simp [wordify, wordifyCore_eq_fragment, hfrag]
    rw [hw]
  | cons c cs =>
    have hcore : wordifyCore R = c :: cs := by rw [wordifyCore_eq_fragment, hfrag]
    have hw : wordify R true = some (ofChars (c.toUpper :: cs)) := by
      simp [wordify, hcore]
    have hw2 : wordify R false = some (ofChars (c :: cs)) := by
      simp [wordify, hcore]
    rw [hw, hw2]
    have hupper : upperFirst (fragmentSpec R) = ofChars (c.toUpper :: cs) := by
      unfold upperFirst
      rw [hfrag]
    rw [hupper]
    dsimp only
    simp only [hunexp, Bool.not_false, Bool.and_true]
    by_cases hs : strStarts (goReplace w P (ofChars (c.toUpper :: cs)) none)
        (ofChars (c.toUpper :: cs)) = true
    · rw [if_pos hs, if_pos hs]
      rw [goReplace_first_of_starts _ _ _ (by simp [ofChars]) hs]
      simp [ofChars]
    · rw [if_neg hs, if_neg hs]

/-- C4 (witness): `keyType` inside the unexported `keyTypeList` with
replacement `int` follows the amended rule and yields `intList`. -/
theorem c4_literal_rule_witness :
    subIntoLiteral "keyTypeList" "keyType" "int" =
      literalRuleSpec "keyTypeList" "keyType" "int" :=
  c4_literal_rule "keyTypeList" "keyType" "int" (by decide) (by decide) (by decide)

/-- C2 (witness): a singleton substitution set, permuted (trivially) to
itself, gives identical output. -/
theorem c2_determinism_witness :
    Generics "f.go" "o.go" "" tplC2 okNorm [[("T", "int")]] =
      Generics "f.go" "o.go" "" tplC2 okNorm [[("T", "int")]] :=
  c2_determinism "f.go" "o.go" "" tplC2 okNorm _ _
    (List.Forall₂.cons ⟨List.Perm.refl _, by decide⟩ List.Forall₂.nil)

/-- Once the renamer is done, the remaining lines pass through unchanged —
even further `package`-prefixed ones. -/
theorem changePackageAux_done (pkg : String) (lines : List String) :
    changePackageAux pkg true lines = some lines := by
  induction lines with
  | nil => rfl
  | cons x xs ih => simp [changePackageAux, ih]

/-- Lines before the first `package`-prefixed line pass through the renamer
unchanged. -/
theorem changePackageAux_skip (pkg : String) (pre : List String)
    (hpre : ∀ x ∈ pre, strStarts x "package" = false) (rest : List String) :
    changePackageAux pkg false (pre ++ rest) =
      (changePackageAux pkg false rest).map (fun r => pre ++ r) := by
  induction pre with
  | nil =>
    simp only [List.nil_append]
    cases changePackageAux pkg false rest <;> rfl
  | cons x xs ih =>
    have hx : strStarts x "package" = false := hpre x (List.mem_cons_self _ _)
    have ih2 := ih (fun y hy => hpre y (List.mem_cons_of_mem _ hy))
    simp only [List.cons_append, changePackageAux]
    rw [if_neg (by simp [hx])]
    have ih3 : changePackageAux pkg false (xs.append rest) =
        Option.map (fun r => xs ++ r) (changePackageAux pkg false rest) := ih2
    rw [ih3]
    cases changePackageAux pkg false rest <;> rfl

/-- A string without a space character does not split on `" "`. -/
theorem goSplit_no_space (l : String) (h : ' ' ∉ l.data) : goSplit l " " = [l] := by
  have hsep : (" " : String).data = [' '] := rfl
  unfold goSplit
  rw [if_neg (by decide)]
  rw [hsep]
  have hnone : splitFirst [' '] l.data = none := by
    cases hs : splitFirst [' '] l.data with
    | none => rfl
    | some p =>
      cases p with
      | mk b a =>
        obtain ⟨hdec, _⟩ := splitFirst_single_some ' ' l.data b a hs
        exact absurd (hdec ▸ (List.mem_append_right b (List.mem_cons_self _ _))) h
  rw [splitFuel, hnone]
  simp [ofChars_data]

/-- C9: when the first `package`-prefixed line of the text contains no space
character (splitting on the single space yields fewer than two parts), the
renamer indexes `parts[1]` out of range and panics; it does not split on
general white space. -/
theorem c9_renamer_panic (pkgName : String) (pre : List String) (l : String)
    (post : List String)
    (hpre : ∀ x ∈ pre, strStarts x "package" = false)
    (hl : strStarts l "package" = true)
    (hns : ' ' ∉ l.data) :
    changePackage (pre ++ l :: post) pkgName = none := by
  unfold changePackage
  rw [changePackageAux_skip pkgName pre hpre (l :: post)]
  have hstep : changePackageAux pkgName false (l :: post) = none := by
    have hcond : (!false && strStarts l "package") = true := by simp [hl]
    simp only [changePackageAux]
    rw [if_pos hcond, goSplit_no_space l hns]
  rw [hstep]
  rfl

/-- C9 (witness): the line `package` alone (no space) makes the renamer
panic. -/
theorem c9_renamer_panic_witness : changePackage ["package"] "x" = none :=
  c9_renamer_panic "x" [] "package" [] (by intro x hx; cases hx) (by decide) (by decide)

/-- C7 (counterexample): on the tab-separated line `package\tmain` the
claimed white-space splitting would rewrite the second token (yielding
`package foo`), but the code splits on the single space character only,
finds one part, and panics indexing `parts[1]` — it rewrites nothing. -/
theorem c7_renamer_counterexample :
    changePackage ["package\tmain"] "foo" = none ∧
    changePackageWhitespaceSpec ["package\tmain"] "foo" = ["package foo"] := by
  constructor
  · decide
  · decide

/-- C7 (amended): when a non-empty package name is supplied and the first
`package`-prefixed line splits on the single space character (not general
white space) into at least two parts, the renamer rewrites only that line —
replacing the second space-separated part with the target name — leaves
every other line byte-for-byte unchanged (later `package` lines included),
and performs at most one rewrite. -/
theorem c7_renamer (pkgName : String) (pre : List String) (l : String)
    (post : List String)
    (hpre : ∀ x ∈ pre, strStarts x "package" = false)
    (hl : strStarts l "package" = true)
    (hparts : 2 ≤ (goSplit l " ").length) :
    changePackage (pre ++ l :: post) pkgName =
      some (pre ++ goJoin ((goSplit l " ").set 1 pkgName) " " :: post) := by
  unfold changePackage
  rw [changePackageAux_skip pkgName pre hpre (l :: post)]
  have hstep : changePackageAux pkgName false (l :: post) =
      some (goJoin ((goSplit l " ").set 1 pkgName) " " :: post) := by
    have hcond : (!false && strStarts l "package") = true := by simp [hl]
    simp only [changePackageAux]
    rw [if_pos hcond]
    cases hp : goSplit l " " with
    | nil => rw [hp] at hparts; simp at hparts
    | cons a tl =>
      cases tl with
      | nil => rw [hp] at hparts; simp at hparts
      | cons b tl2 =>
        rw [changePackageAux_done]
        rfl
  rw [hstep]
  rfl

/-- C7 (witness): a concrete rename rewriting only the first package line
and leaving a later one untouched. -/
theorem c7_renamer_witness :
    changePackage ["// gen", "package main", "package other"] "foo" =
      some (["// gen"] ++ goJoin ((goSplit "package main" " ").set 1 "foo") " " ::
        ["package other"]) :=
  c7_renamer "foo" ["// gen"] "package main" ["package other"]
    (by decide) (by decide) (by decide)

/-- Two non-empty prefixes of the same list share their first character. -/
theorem isPrefixOf_false_of_ne_head (x y : Char) (xs ys l : List Char)
    (hne : y = x → False) (h : (x :: xs).isPrefixOf l = true) :
    (y :: ys).isPrefixOf l = false := by
  cases l with
  | nil => simp [List.isPrefixOf] at h
  | cons a as =>
    simp only [List.isPrefixOf, Bool.and_eq_true, beq_iff_eq] at h
    simp only [List.isPrefixOf]
    obtain ⟨hxa, _⟩ := h
    have hya : (y == a) = false := by
      rw [beq_eq_false_iff_ne]
      intro he
      exact hne (by rw [he, ← hxa])
    simp [hya]

/-- A `package`-prefixed line is not `import`-prefixed. -/
theorem not_import_of_package (s : String) (h : strStarts s "package" = true) :
    strStarts s "import" = false := by
  unfold strStarts at h ⊢
  have hp : ("package" : String).data = 'p' :: "ackage".data := rfl
  have hi : ("import" : String).data = 'i' :: "mport".data := rfl
  rw [hp] at h
  rw [hi]
  exact isPrefixOf_false_of_ne_head 'p' 'i' _ _ s.data (by decide) h

/-- An `import`-prefixed line is not `package`-prefixed. -/
theorem not_package_of_import (s : String) (h : strStarts s "import" = true) :
    strStarts s "package" = false := by
  unfold strStarts at h ⊢
  have hp : ("package" : String).data = 'p' :: "ackage".data := rfl
  have hi : ("import" : String).data = 'i' :: "mport".data := rfl
  rw [hi] at h
  rw [hp]
  exact isPrefixOf_false_of_ne_head 'i' 'p' _ _ s.data (by decide) h

/-- A `package`-prefixed line is not a `//go:generate genny ` directive. -/
theorem not_unwanted_of_package (s : String) (h : strStarts s "package" = true) :
    strStarts s unwantedLineStart = false := by
  unfold strStarts at h ⊢
  have hp : ("package" : String).data = 'p' :: "ackage".data := rfl
  have hu : unwantedLineStart.data = '/' :: "/go:generate genny ".data := rfl
  rw [hp] at h
  rw [hu]
  exact isPrefixOf_false_of_ne_head 'p' '/' _ _ s.data (by decide) h

/-- Applying `makeLine` only removes trailing characters. -/
theorem makeLine_data (s : String) :
    s.data = (makeLine s).data ++
      (s.data.reverse.takeWhile (fun c => c = '\r' || c = '\n')).reverse := by
  have hsplit := List.takeWhile_append_dropWhile
    (fun c => c = '\r' || c = '\n') s.data.reverse
  have h2 := congrArg List.reverse hsplit
  rw [List.reverse_append, List.reverse_reverse] at h2
  exact h2.symm

/-- A prefix of the trimmed line was a prefix of the original line. -/
theorem strStarts_of_makeLine (s p : String) (h : strStarts (makeLine s) p = true) :
    strStarts s p = true := by
  have hd := makeLine_data s
  unfold strStarts at h ⊢
  rw [List.isPrefixOf_iff_prefix] at h ⊢
  rw [hd]
  exact h.trans (List.prefix_append _ _)

/-- Trimming a line cannot create a prefix it did not have. -/
theorem makeLine_not_starts (s p : String) (h : strStarts s p = false) :
    strStarts (makeLine s) p = false := by
  cases hm : strStarts (makeLine s) p with
  | false => rfl
  | true => rw [strStarts_of_makeLine s p hm] at h; exact Bool.noConfusion h

/-- Trimming trailing newline characters keeps the `package` prefix. -/
theorem makeLine_keeps_package (l : String) (h : strStarts l "package" = true) :
    strStarts (makeLine l) "package" = true := by
  unfold strStarts at h ⊢
  rw [List.isPrefixOf_iff_prefix] at h ⊢
  obtain ⟨u, hu⟩ := h
  have hml : (makeLine l).data =
      (l.data.reverse.dropWhile (fun c => c = '\r' || c = '\n')).reverse := rfl
  rw [hml, ← hu, List.reverse_append, List.dropWhile_append]
  by_cases he : (u.reverse.dropWhile (fun c => c = '\r' || c = '\n')).isEmpty = true
  · rw [if_pos he]
    have hpk : ("package" : String).data.reverse.dropWhile (fun c => c = '\r' || c = '\n') =
        ("package" : String).data.reverse := by decide
    rw [hpk, List.reverse_reverse]
  · rw [if_neg he, List.reverse_append, List.reverse_reverse]
    exact List.prefix_append _ _

/-- Inside an import block every line up to and including the closing
parenthesis line is discarded. -/
theorem cleanLines_inside_block (pf : Bool) (body : List String)
    (hbody : ∀ b ∈ body, strEnds b ")" = false) (closeLine : String)
    (hclose : strEnds closeLine ")" = true) (post : List String) :
    cleanLines pf true (body ++ closeLine :: post) = cleanLines pf false post := by
  induction body with
  | nil =>
    simp only [List.nil_append, cleanLines]
    rw [if_pos hclose]
  | cons b bs ih =>
    have hb : strEnds b ")" = false := hbody b (List.mem_cons_self _ _)
    simp only [List.cons_append, cleanLines]
    rw [if_neg (by simp [hb])]
    exact ih (fun y hy => hbody y (List.mem_cons_of_mem _ hy))

/-- A whole well-formed import block — the opening line, the lines inside
and the closing line — is discarded by the clean-up pass. -/
theorem cleanLines_block_skip (pf : Bool) (openLine : String)
    (hopen : strStarts openLine "import" = true) (hparen : strEnds openLine "(" = true)
    (body : List String) (hbody : ∀ b ∈ body, strEnds b ")" = false)
    (closeLine : String) (hclose : strEnds closeLine ")" = true) (post : List String) :
    cleanLines pf false (openLine :: (body ++ closeLine :: post)) =
      cleanLines pf false post := by
  have hnp : strStarts openLine "package" = false := not_package_of_import openLine hopen
  simp only [cleanLines]
  rw [if_neg (by simp [hnp]), if_pos hopen, if_pos hparen]
  exact cleanLines_inside_block pf body hbody closeLine hclose post

/-- No line of the cleaned output is `import`-prefixed. -/
theorem cleanLines_no_import (lines : List String) : ∀ pf ib l,
    l ∈ cleanLines pf ib lines → strStarts l "import" = false := by
  induction lines with
  | nil => intro pf ib l h; simp [cleanLines] at h
  | cons x rest ih =>
    intro pf ib l h
    cases ib with
    | true =>
      simp only [cleanLines] at h
      by_cases hx : strEnds x ")" = true
      · rw [if_pos hx] at h; exact ih pf false l h
      · rw [if_neg hx] at h; exact ih pf true l h
    | false =>
      simp only [cleanLines] at h
      by_cases h1 : strStarts x "package" = true
      · rw [if_pos h1] at h
        cases pf with
        | true => exact ih true false l (by simpa using h)
        | false =>
          rw [if_neg (by simp : ¬(false = true))] at h
          by_cases h1u : strStarts x unwantedLineStart = true
          · rw [if_pos h1u] at h; exact ih true false l h
          · rw [if_neg h1u] at h
            rcases List.mem_cons.mp h with hl | hl
            · rw [hl]
              exact makeLine_not_starts x "import" (not_import_of_package x h1)
            · exact ih true false l hl
      · rw [if_neg h1] at h
        by_cases h2 : strStarts x "import" = true
        · rw [if_pos h2] at h
          by_cases h3 : strEnds x "(" = true
          · rw [if_pos h3] at h; exact ih pf true l h
          · rw [if_neg h3] at h; exact ih pf false l h
        · rw [if_neg h2] at h
          by_cases h4 : strStarts x unwantedLineStart = true
          · rw [if_pos h4] at h; exact ih pf false l h
          · rw [if_neg h4] at h
            rcases List.mem_cons.mp h with hl | hl
            · rw [hl]
              exact makeLine_not_starts x "import"
                (by cases hx2 : strStarts x "import" with
                    | false => rfl
                    | true => exact absurd hx2 h2)
            · exact ih pf false l hl

/-- C10: the merger's clean-up drops every `import`-prefixed line
unconditionally — single-line `import "pkg"` statements included — and for
a parenthesized block it also drops the closing-parenthesis line, not only
the opening line and the lines strictly inside. -/
theorem c10_import_discard :
    (∀ pf ib lines l, l ∈ cleanLines pf ib lines → strStarts l "import" = false) ∧
    (∀ pf openLine body closeLine post,
      strStarts openLine "import" = true → strEnds openLine "(" = true →
      (∀ b ∈ body, strEnds b ")" = false) → strEnds closeLine ")" = true →
      cleanLines pf false (openLine :: (body ++ closeLine :: post)) =
        cleanLines pf false post) := by
  constructor
  · intro pf ib lines l
    exact cleanLines_no_import lines pf ib l
  · intro pf openLine body closeLine post hopen hparen hbody hclose
    exact cleanLines_block_skip pf openLine hopen hparen body hbody closeLine hclose post

/-- C10 (witness): a single-line import is dropped (so the surviving line
is not import-prefixed), and a concrete `import ( ... )` block disappears
whole, its closing line included. -/
theorem c10_import_discard_witness :
    strStarts "func f()" "import" = false ∧
    cleanLines false false ("import (" :: (["\t\"fmt\""] ++ ")" :: ["func f()"])) =
      cleanLines false false ["func f()"] := by
  constructor
  · exact c10_import_discard.1 false false ["import \"fmt\"", "func f()"] "func f()"
      (by decide)
  · exact c10_import_discard.2 false "import (" ["\t\"fmt\""] ")" ["func f()"]
      (by decide) (by decide) (by decide) (by decide)

/-- Once a package clause was kept, no further `package`-prefixed line
reaches the output. -/
theorem cleanLines_package_zero (lines : List String) : ∀ ib,
    List.countP (fun l => strStarts l "package") (cleanLines true ib lines) = 0 := by
  induction lines with
  | nil => intro ib; cases ib <;> rfl
  | cons x rest ih =>
    intro ib
    cases ib with
    | true =>
      simp only [cleanLines]
      by_cases hx : strEnds x ")" = true
      · rw [if_pos hx]; exact ih false
      · rw [if_neg hx]; exact ih true
    | false =>
      simp only [cleanLines]
      by_cases h1 : strStarts x "package" = true
      · rw [if_pos h1, if_pos trivial]; exact ih false
      · rw [if_neg h1]
        by_cases h2 : strStarts x "import" = true
        · rw [if_pos h2]
          by_cases h3 : strEnds x "(" = true
          · rw [if_pos h3]; exact ih true
          · rw [if_neg h3]; exact ih false
        · rw [if_neg h2]
          by_cases h4 : strStarts x unwantedLineStart = true
          · rw [if_pos h4]; exact ih false
          · rw [if_neg h4]
            rw [List.countP_cons]
            have hnp : strStarts (makeLine x) "package" = false := by
              apply makeLine_not_starts
              cases hx2 : strStarts x "package" with
              | false => rfl
              | true => exact absurd hx2 h1
            rw [ih false]
            simp [hnp]

/-- The cleaned output holds at most one `package`-prefixed line. -/
theorem cleanLines_package_le (lines : List String) : ∀ ib,
    List.countP (fun l => strStarts l "package") (cleanLines false ib lines) ≤ 1 := by
  induction lines with
  | nil => intro ib; cases ib <;> simp [cleanLines]
  | cons x rest ih =>
    intro ib
    cases ib with
    | true =>
      simp only [cleanLines]
      by_cases hx : strEnds x ")" = true
      · rw [if_pos hx]; exact ih false
      · rw [if_neg hx]; exact ih true
    | false =>
      simp only [cleanLines]
      by_cases h1 : strStarts x "package" = true
      · rw [if_pos h1, if_neg (by simp : ¬(false = true))]
        by_cases h1u : strStarts x unwantedLineStart = true
        · rw [if_pos h1u]
          rw [cleanLines_package_zero]
          exact Nat.zero_le 1
        · rw [if_neg h1u, List.countP_cons, cleanLines_package_zero]
          split <;> simp
      · rw [if_neg h1]
        by_cases h2 : strStarts x "import" = true
        · rw [if_pos h2]
          by_cases h3 : strEnds x "(" = true
          · rw [if_pos h3]; exact ih true
          · rw [if_neg h3]; exact ih false
        · rw [if_neg h2]
          by_cases h4 : strStarts x unwantedLineStart = true
          · rw [if_pos h4]; exact ih false
          · rw [if_neg h4, List.countP_cons]
            have hnp : strStarts (makeLine x) "package" = false := by
              apply makeLine_not_starts
              cases hx2 : strStarts x "package" with
              | false => rfl
              | true => exact absurd hx2 h1
            rw [hnp]
            simpa using ih false

/-- When an import-free prefix precedes a `package` clause, the clause
survives the clean-up. -/
theorem cleanLines_package_ge (pre : List String)
    (hpre : ∀ x ∈ pre, strStarts x "import" = false) (pkgLine : String)
    (hpkg : strStarts pkgLine "package" = true) (rest : List String) :
    1 ≤ List.countP (fun l => strStarts l "package")
      (cleanLines false false (pre ++ pkgLine :: rest)) := by
  induction pre with
  | nil =>
    simp only [List.nil_append, cleanLines]
    rw [if_pos hpkg, if_neg (by simp : ¬(false = true)),
      if_neg (by simp [not_unwanted_of_package pkgLine hpkg]), List.countP_cons]
    rw [makeLine_keeps_package pkgLine hpkg]
    simp
  | cons x xs ih =>
    have hxi : strStarts x "import" = false := hpre x (List.mem_cons_self _ _)
    have ih2 := ih (fun y hy => hpre y (List.mem_cons_of_mem _ hy))
    simp only [List.cons_append, cleanLines]
    by_cases h1 : strStarts x "package" = true
    · rw [if_pos h1, if_neg (by simp : ¬(false = true)),
        if_neg (by simp [not_unwanted_of_package x h1]), List.countP_cons]
      rw [makeLine_keeps_package x h1]
      simp
    · rw [if_neg h1, if_neg (by simp [hxi])]
      by_cases h4 : strStarts x unwantedLineStart = true
      · rw [if_pos h4]; exact ih2
      · rw [if_neg h4, List.countP_cons]
        exact Nat.le_add_right_of_le ih2

/-- The clean-up is the kept-projection of its instrumented trace. -/
theorem cleanLines_eq_trace (lines : List String) : ∀ pf ib,
    cleanLines pf ib lines =
      (cleanTrace pf ib lines).filterMap
        (fun e => if e.2.1 then some e.1 else none) := by
  induction lines with
  | nil => intro pf ib; cases ib <;> rfl
  | cons x rest ih =>
    intro pf ib
    cases ib with
    | true =>
      simp only [cleanLines, cleanTrace]
      by_cases hx : strEnds x ")" = true
      · rw [if_pos hx, if_pos hx, List.filterMap_cons]
        simpa using ih pf false
      · rw [if_neg hx, if_neg hx, List.filterMap_cons]
        simpa using ih pf true
    | false =>
      simp only [cleanLines, cleanTrace]
      by_cases h1 : strStarts x "package" = true
      · rw [if_pos h1, if_pos h1]
        cases pf with
        | true =>
          rw [if_pos rfl, if_pos rfl, List.filterMap_cons]
          simpa using ih true false
        | false =>
          rw [if_neg (by simp : ¬(false = true)), if_neg (by simp : ¬(false = true))]
          by_cases h1u : strStarts x unwantedLineStart = true
          · rw [if_pos h1u, if_pos h1u, List.filterMap_cons]
            simpa using ih true false
          · rw [if_neg h1u, if_neg h1u, List.filterMap_cons]
            simpa using congrArg (fun t => makeLine x :: t) (ih true false)
      · rw [if_neg h1, if_neg h1]
        by_cases h2 : strStarts x "import" = true
        · rw [if_pos h2, if_pos h2]
          by_cases h3 : strEnds x "(" = true
          · rw [if_pos h3, if_pos h3, List.filterMap_cons]
            simpa using ih pf true
          · rw [if_neg h3, if_neg h3, List.filterMap_cons]
            simpa using ih pf false
        · rw [if_neg h2, if_neg h2]
          by_cases h4 : strStarts x unwantedLineStart = true
          · rw [if_pos h4, if_pos h4, List.filterMap_cons]
            simpa using ih pf false
          · rw [if_neg h4, if_neg h4, List.filterMap_cons]
            simpa using congrArg (fun t => makeLine x :: t) (ih pf false)

/-- Import-related trace entries (inside a block, or `import`-prefixed) are
never kept. -/
theorem cleanTrace_block_not_kept (lines : List String) : ∀ pf ib e,
    e ∈ cleanTrace pf ib lines → e.2.2 = true → e.2.1 = false := by
  induction lines with
  | nil => intro pf ib e h; simp [cleanTrace] at h
  | cons x rest ih =>
    intro pf ib e h hflag
    cases ib with
    | true =>
      simp only [cleanTrace] at h
      by_cases hx : strEnds x ")" = true
      · rw [if_pos hx] at h
        rcases List.mem_cons.mp h with hl | hl
        · rw [hl]
        · exact ih pf false e hl hflag
      · rw [if_neg hx] at h
        rcases List.mem_cons.mp h with hl | hl
        · rw [hl]
        · exact ih pf true e hl hflag
    | false =>
      simp only [cleanTrace] at h
      by_cases h1 : strStarts x "package" = true
      · rw [if_pos h1] at h
        cases pf with
        | true =>
          rw [if_pos rfl] at h
          rcases List.mem_cons.mp h with hl | hl
          · rw [hl] at hflag; exact Bool.noConfusion hflag
          · exact ih true false e hl hflag
        | false =>
          rw [if_neg (by simp : ¬(false = true))] at h
          by_cases h1u : strStarts x unwantedLineStart = true
          · rw [if_pos h1u] at h
            rcases List.mem_cons.mp h with hl | hl
            · rw [hl] at hflag; exact Bool.noConfusion hflag
            · exact ih true false e hl hflag
          · rw [if_neg h1u] at h
            rcases List.mem_cons.mp h with hl | hl
            · rw [hl] at hflag; exact Bool.noConfusion hflag
            · exact ih true false e hl hflag
      · rw [if_neg h1] at h
        by_cases h2 : strStarts x "import" = true
        · rw [if_pos h2] at h
          by_cases h3 : strEnds x "(" = true
          · rw [if_pos h3] at h
            rcases List.mem_cons.mp h with hl | hl
            · rw [hl]
            · exact ih pf true e hl hflag
          · rw [if_neg h3] at h
            rcases List.mem_cons.mp h with hl | hl
            · rw [hl]
            · exact ih pf false e hl hflag
        · rw [if_neg h2] at h
          by_cases h4 : strStarts x unwantedLineStart = true
          · rw [if_pos h4] at h
            rcases List.mem_cons.mp h with hl | hl
            · rw [hl] at hflag; exact Bool.noConfusion hflag
            · exact ih pf false e hl hflag
          · rw [if_neg h4] at h
            rcases List.mem_cons.mp h with hl | hl
            · rw [hl] at hflag; exact Bool.noConfusion hflag
            · exact ih pf false e hl hflag

/-- Peeling one successful per-set generation off a successful multi-set
run. -/
theorem generateAll_cons_ok (tpl : GoTemplate) (ts : List (String × String))
    (rest : List (List (String × String))) (out body : List String)
    (hout : generateSpecific tpl ts = some (Except.ok out))
    (hall : generateAll tpl (ts :: rest) = some (Except.ok body)) :
    ∃ rb, generateAll tpl rest = some (Except.ok rb) ∧ body = out ++ rb := by
  simp only [generateAll] at hall
  rw [hout] at hall
  cases hr : generateAll tpl rest with
  | none => rw [hr] at hall; simp at hall
  | some r2 =>
    rw [hr] at hall
    cases r2 with
    | error e => simp at hall
    | ok rb =>
      refine ⟨rb, rfl, ?_⟩
      simp at hall
      exact hall.symm

/-- C5 (counterexample): per-set generation succeeds (one set, full
coverage, no panic), yet the cleaned merged pre-normalization text retains
the line `"fmt"` from strictly inside a hand-authored import block: the
substitution key `(` made the substituter re-render the opening line as
`import ( ` (trailing space), so the merger never enters the block. -/
theorem c5_block_counterexample :
    mergedLines tplC5x [[("T", "int"), ("(", "x")]] =
      some (headerLines ++ ["package main", "import ( ", "\"fmt\"", ")",
        "func f ( int ) ; "]) ∧
    "\"fmt\"" ∈ cleanLines false false
      (headerLines ++ ["package main", "import ( ", "\"fmt\"", ")",
        "func f ( int ) ; "]) := by
  constructor
  · decide
  · decide

/-- C5 (amended): for a template whose per-set generation succeeds on every
set of a non-empty list, whose first instantiation has an import-free
prefix followed by a `package` clause, the merged pre-normalization text
(cleaned output before renaming and `imports.Process`) holds exactly one
`package`-prefixed line; no surviving line is `import`-prefixed, and — via
the instrumented trace, of which the clean-up is the kept-projection — no
line the merger scans as part of an import block (opening, inside, or
closing line) or as a single-line import survives.  (The counterexample
forces the two added provisos: block-line elimination is relative to the
merger's own block tracking, which substitution can defeat by rewriting the
opening line, and the package-clause count needs the clause to survive in
the first instantiation.) -/
theorem c5_merge (tpl : GoTemplate) (ts1 : List (String × String))
    (restSets : List (List (String × String))) (body out1 opre orest : List String)
    (pkgLine : String)
    (hall : generateAll tpl (ts1 :: restSets) = some (Except.ok body))
    (hout1 : generateSpecific tpl ts1 = some (Except.ok out1))
    (hdec : out1 = opre ++ pkgLine :: orest)
    (hpre : ∀ l ∈ opre, strStarts l "import" = false)
    (hpkg : strStarts pkgLine "package" = true) :
    mergedLines tpl (ts1 :: restSets) = some (headerLines ++ body) ∧
    List.countP (fun l => strStarts l "package")
      (cleanLines false false (headerLines ++ body)) = 1 ∧
    (∀ l ∈ cleanLines false false (headerLines ++ body), strStarts l "import" = false) ∧
    cleanLines false false (headerLines ++ body) =
      (cleanTrace false false (headerLines ++ body)).filterMap
        (fun e => if e.2.1 then some e.1 else none) ∧
    (∀ e ∈ cleanTrace false false (headerLines ++ body), e.2.2 = true → e.2.1 = false) := by
  obtain ⟨rb, hrb, hbody⟩ := generateAll_cons_ok tpl ts1 restSets out1 body hout1 hall
  refine ⟨?_, ?_, ?_, ?_, ?_⟩
  · unfold mergedLines
    rw [hall]
  · apply Nat.le_antisymm
    · exact cleanLines_package_le _ false
    · have hshape : headerLines ++ body = (headerLines ++ opre) ++ pkgLine :: (orest ++ rb) := by
        rw [hbody, hdec]
        simp
      rw [hshape]
      apply cleanLines_package_ge
      · have hhdr : ∀ x ∈ headerLines, strStarts x "import" = false := by decide
        intro x hx
        rcases List.mem_append.mp hx with hh | hh
        · exact hhdr x hh
        · exact hpre x hh
      · exact hpkg
  · intro l hl
    exact cleanLines_no_import _ false false l hl
  · exact cleanLines_eq_trace _ false false
  · intro e he hf
    exact cleanTrace_block_not_kept _ false false e he hf

/-- C5 (witness): the concrete template `tplC5` with one substitution set;
its instantiation opens with the `package` clause, followed by a
hand-authored import block. -/
theorem c5_merge_witness :
    mergedLines tplC5 [[("KeyType", "int")]] =
      some (headerLines ++ ["package main", "import (", "\t\"os\"", ")",
        "func Push ( v int ) ; "]) ∧
    List.countP (fun l => strStarts l "package")
      (cleanLines false false (headerLines ++ ["package main", "import (", "\t\"os\"", ")",
        "func Push ( v int ) ; "])) = 1 ∧
    (∀ l ∈ cleanLines false false (headerLines ++ ["package main", "import (", "\t\"os\"", ")",
        "func Push ( v int ) ; "]), strStarts l "import" = false) ∧
    cleanLines false false (headerLines ++ ["package main", "import (", "\t\"os\"", ")",
        "func Push ( v int ) ; "]) =
      (cleanTrace false false (headerLines ++ ["package main", "import (", "\t\"os\"", ")",
        "func Push ( v int ) ; "])).filterMap
        (fun e => if e.2.1 then some e.1 else none) ∧
    (∀ e ∈ cleanTrace false false (headerLines ++ ["package main", "import (", "\t\"os\"", ")",
        "func Push ( v int ) ; "]), e.2.2 = true → e.2.1 = false) :=
  c5_merge tplC5 [("KeyType", "int")] []
    ["package main", "import (", "\t\"os\"", ")", "func Push ( v int ) ; "]
    ["package main", "import (", "\t\"os\"", ")", "func Push ( v int ) ; "]
    [] ["import (", "\t\"os\"", ")", "func Push ( v int ) ; "] "package main"
    (by decide) (by decide) rfl (by decide) (by decide)

/-- The substituter is total when the replacement's fragment is
non-empty. -/
theorem subIntoLiteral_isSome (lit t sp : String) (h : wordifyCore sp ≠ []) :
    (subIntoLiteral lit t sp).isSome = true := by
  unfold subIntoLiteral
  by_cases h1 : lit = t
  · simp [h1]
  · rw [if_neg h1]
    cases hsc : strContains lit t with
    | false => simp
    | true =>
      rw [if_neg (by simp)]
      cases hc : wordifyCore sp with
      | nil => exact absurd hc h
      | cons c cs =>
        have hw : wordify sp true = some (ofChars (c.toUpper :: cs)) := by
          simp [wordify, hc]
        have hw2 : wordify sp false = some (ofChars (c :: cs)) := by
          simp [wordify, hc]
        rw [hw, hw2]
        dsimp only
        split <;> rfl

/-- An `Option`-valued left fold whose step never fails never fails. -/
theorem foldlM_isSome {α β : Type} (f : β → α → Option β) (l : List α)
    (hf : ∀ b a, a ∈ l → (f b a).isSome = true) :
    ∀ init, (l.foldlM f init).isSome = true := by
  induction l with
  | nil => intro init; rfl
  | cons x xs ih =>
    intro init
    rw [List.foldlM_cons]
    have hx := hf init x (List.mem_cons_self _ _)
    cases hfx : f init x with
    | none => rw [hfx] at hx; exact Bool.noConfusion hx
    | some b =>
      exact ih (fun b2 a ha => hf b2 a (List.mem_cons_of_mem _ ha)) b

/-- Comment substitution is total under non-empty fragments. -/
theorem subTypeIntoComment_isSome (line t sp : String) (h : wordifyCore sp ≠ []) :
    (subTypeIntoComment line t sp).isSome = true := by
  unfold subTypeIntoComment
  apply foldlM_isSome
  intro acc w _
  cases hs : subIntoLiteral (ofChars w) t sp with
  | none =>
    have hsome := subIntoLiteral_isSome (ofChars w) t sp h
    rw [hs] at hsome
    exact Bool.noConfusion hsome
  | some s => simp [hs]

/-- Line substitution is total under non-empty fragments. -/
theorem subTypeIntoLine_isSome (line t sp : String) (h : wordifyCore sp ≠ []) :
    (subTypeIntoLine line t sp).isSome = true := by
  unfold subTypeIntoLine
  apply foldlM_isSome
  intro acc tok _
  cases tok with
  | comment lit =>
    cases hs : subTypeIntoComment lit t sp with
    | none =>
      have hsome := subTypeIntoComment_isSome lit t sp h
      rw [hs] at hsome
      exact Bool.noConfusion hsome
    | some s => simp [hs]
  | literal lit =>
    cases hs : subIntoLiteral lit t sp with
    | none =>
      have hsome := subIntoLiteral_isSome lit t sp h
      rw [hs] at hsome
      exact Bool.noConfusion hsome
    | some s => simp [hs]
  | op s => rfl

/-- The per-line substitution loop is total under non-empty fragments. -/
theorem applyTypeSet_isSome (typeSet : List (String × String)) (line : String)
    (h : ∀ p ∈ typeSet, wordifyCore p.2 ≠ []) :
    (applyTypeSet typeSet line).isSome = true := by
  unfold applyTypeSet
  apply foldlM_isSome
  intro l p hp
  by_cases hc : strContains l p.1 = true
  · rw [if_pos hc]
    exact subTypeIntoLine_isSome l p.1 p.2 (h p hp)
  · rw [if_neg hc]
    rfl

/-- The per-set line scan is total under non-empty fragments. -/
theorem generateSpecificLines_isSome (typeSet : List (String × String))
    (h : ∀ p ∈ typeSet, wordifyCore p.2 ≠ []) (lines : List String) :
    ∀ comment, (generateSpecificLines typeSet lines comment).isSome = true := by
  induction lines with
  | nil => intro comment; rfl
  | cons line rest ih =>
    intro comment
    simp only [generateSpecificLines]
    by_cases hg : (strContains line genericType || strContains line genericNumber) = true
    · rw [if_pos hg]
      exact ih ""
    · rw [if_neg hg]
      obtain ⟨subbed, hs⟩ := Option.isSome_iff_exists.mp (applyTypeSet_isSome typeSet line h)
      rw [hs]
      show (Option.bind (some subbed) _).isSome = true
      rw [Option.some_bind]
      by_cases hc : strStarts subbed "//" = true
      · rw [if_pos hc]
        obtain ⟨v, hv⟩ := Option.isSome_iff_exists.mp (ih subbed)
        rw [hv]
        rfl
      · rw [if_neg hc]
        obtain ⟨v, hv⟩ := Option.isSome_iff_exists.mp (ih "")
        rw [hv]
        rfl

/-- A set that passes validation generates successfully. -/
theorem generateSpecific_ok (tpl : GoTemplate) (ts : List (String × String))
    (hparse : tpl.parseError = none)
    (hcov : (requiredGenericNames tpl.decls).find? (fun n => !(lookupTypeSet ts n)) = none)
    (h : ∀ p ∈ ts, wordifyCore p.2 ≠ []) :
    ∃ out, generateSpecific tpl ts = some (Except.ok out) := by
  unfold generateSpecific
  rw [hparse, hcov]
  obtain ⟨v, hv⟩ := Option.isSome_iff_exists.mp
    (generateSpecificLines_isSome ts h tpl.lines "")
  exact ⟨v, by rw [hv]; rfl⟩

/-- The multi-set loop stops at the first set missing a required
placeholder, returning that validation error and no output. -/
theorem generateAll_missing (tpl : GoTemplate) (n : String)
    (hparse : tpl.parseError = none) :
    ∀ typeSets : List (List (String × String)),
    (∀ ts ∈ typeSets, ∀ p ∈ ts, wordifyCore p.2 ≠ []) →
    n ∈ requiredGenericNames tpl.decls →
    (∃ ts ∈ typeSets, lookupTypeSet ts n = false) →
    ∃ m, m ∈ requiredGenericNames tpl.decls ∧
      (∃ ts ∈ typeSets, lookupTypeSet ts m = false) ∧
      generateAll tpl typeSets =
        some (Except.error (GennyError.errMissingSpecificType m)) := by
  intro typeSets
  induction typeSets with
  | nil =>
    intro _ _ hmiss
    obtain ⟨ts, hts, _⟩ := hmiss
    cases hts
  | cons ts rest ih =>
    intro htotal hreq hmiss
    cases hf : (requiredGenericNames tpl.decls).find? (fun x => !(lookupTypeSet ts x)) with
    | some m =>
      refine ⟨m, List.mem_of_find?_eq_some hf, ⟨ts, List.mem_cons_self _ _, ?_⟩, ?_⟩
      · have hp := List.find?_some hf
        simpa using hp
      · have hgs : generateSpecific tpl ts =
            some (Except.error (GennyError.errMissingSpecificType m)) := by
          unfold generateSpecific
          rw [hparse, hf]
        simp only [generateAll]
        rw [hgs]
        rfl
    | none =>
      have hcov : ∀ x ∈ requiredGenericNames tpl.decls, lookupTypeSet ts x = true := by
        intro x hx
        have hne := List.find?_eq_none.mp hf x hx
        simpa using hne
      obtain ⟨ts0, hts0, hts0f⟩ := hmiss
      have hts0r : ts0 ∈ rest := by
        rcases List.mem_cons.mp hts0 with he | hr
        · exfalso
          rw [he] at hts0f
          rw [hcov n hreq] at hts0f
          exact Bool.noConfusion hts0f
        · exact hr
      obtain ⟨m, hm1, hm2, hm3⟩ :=
        ih (fun t ht p hp => htotal t (List.mem_cons_of_mem _ ht) p hp) hreq
          ⟨ts0, hts0r, hts0f⟩
      obtain ⟨out, hout⟩ :=
        generateSpecific_ok tpl ts hparse hf (htotal ts (List.mem_cons_self _ _))
      refine ⟨m, hm1, ?_, ?_⟩
      · obtain ⟨t2, ht2, ht2f⟩ := hm2
        exact ⟨t2, List.mem_cons_of_mem _ ht2, ht2f⟩
      · simp only [generateAll]
        rw [hout, hm3]
        rfl

/-- C3: if some required placeholder (declared with a `generic.` selector)
is missing from some substitution set of the list, `Generics` fails with a
missing-specific-type error naming a required-and-missing placeholder and
returns no output at all — no partial output for any set, including sets
that individually satisfy coverage.  (The theorem assumes the template
parses and every replacement wordifies to a non-empty fragment, so that no
earlier set panics before the validation error is reached.) -/
theorem c3_coverage_gate (fn ofn pkg : String) (tpl : GoTemplate)
    (norm : String → String → Except String String)
    (typeSets : List (List (String × String))) (n : String)
    (hparse : tpl.parseError = none)
    (htotal : ∀ ts ∈ typeSets, ∀ p ∈ ts, wordifyCore p.2 ≠ [])
    (hreq : n ∈ requiredGenericNames tpl.decls)
    (hmiss : ∃ ts ∈ typeSets, lookupTypeSet ts n = false) :
    ∃ m, m ∈ requiredGenericNames tpl.decls ∧
      (∃ ts ∈ typeSets, lookupTypeSet ts m = false) ∧
      Generics fn ofn pkg tpl norm typeSets =
        some (Except.error (GennyError.errMissingSpecificType m)) := by
  obtain ⟨m, h1, h2, h3⟩ := generateAll_missing tpl n hparse typeSets htotal hreq hmiss
  refine ⟨m, h1, h2, ?_⟩
  unfold Generics
  rw [h3]

/-- C3 (witness): in `setsC3` the second set misses `ValueType`; the run
aborts with the missing-specific-type error. -/
theorem c3_coverage_gate_witness :
    ∃ m, m ∈ requiredGenericNames tplC3.decls ∧
      (∃ ts ∈ setsC3, lookupTypeSet ts m = false) ∧
      Generics "f.go" "o.go" "" tplC3 okNorm setsC3 =
        some (Except.error (GennyError.errMissingSpecificType m)) :=
  c3_coverage_gate "f.go" "o.go" "" tplC3 okNorm setsC3 "ValueType"
    rfl (by decide) (by decide) (by decide)

end Genny
